import Mathlib

/-!
Verification development for the NCC PDF ingestion pipeline
(`src/ingestion/ingest.py`).

Strings are modelled as `List Char`.  Python string primitives
(`str.strip`, `str.find`, `str.split`, slicing) are embedded directly;
the regular expressions of the source are embedded as equivalent
character-list matchers (their character classes are pairwise disjoint,
so greedy scanning coincides with backtracking semantics).  `\d` and
`[A-Z]` are modelled over ASCII, which is the alphabet the pipeline's
documents use.  PDF access (`fitz`) is external to the repository, so
`chunk_pdf` is parameterised by the memoized cleaned-page-text accessor
`pageText` (the source's `get_page_text`) together with the table of
contents and the page count that `fitz` would provide.
-/

set_option maxRecDepth 20000

/-- Characters for which Python's `str.isspace()` (and `\s` in a `str`
regular expression) is true. -/
def isPyWs (c : Char) : Bool :=
  let n := c.toNat
  (0x09 ≤ n && n ≤ 0x0D) || (0x1C ≤ n && n ≤ 0x1F) || n == 0x20 ||
  n == 0x85 || n == 0xA0 || n == 0x1680 || (0x2000 ≤ n && n ≤ 0x200A) ||
  n == 0x2028 || n == 0x2029 || n == 0x202F || n == 0x205F || n == 0x3000

/-- Python `str.strip()`: remove leading and trailing whitespace. -/
def stripPy (l : List Char) : List Char :=
  ((l.dropWhile isPyWs).reverse.dropWhile isPyWs).reverse

/-- Python `str.find(sub)`: index of the first occurrence of `pat`,
`none` when there is no occurrence. -/
def findSub : List Char → List Char → Option Nat
  | [], pat => if pat.isPrefixOf [] then some 0 else none
  | c :: t, pat =>
    if pat.isPrefixOf (c :: t) then some 0
    else (findSub t pat).map (· + 1)

/-- Python `str.find(sub, start)` (for the non-empty patterns the source
searches for). -/
def findSubFrom (l pat : List Char) (start : Nat) : Option Nat :=
  (findSub (l.drop start) pat).map (· + start)

/-- Python `sub in s` substring test. -/
def containsSub (l pat : List Char) : Bool :=
  (findSub l pat).isSome

/-- Helper for `wordsPy`: accumulate the current word (reversed). -/
def wordsAux (cur : List Char) : List Char → List (List Char)
  | [] => if cur.isEmpty then [] else [cur.reverse]
  | c :: rest =>
    if isPyWs c then
      if cur.isEmpty then wordsAux [] rest
      else cur.reverse :: wordsAux [] rest
    else wordsAux (c :: cur) rest

/-- Python `str.split()` with no argument: split on whitespace runs,
discarding empty words. -/
def wordsPy (l : List Char) : List (List Char) :=
  wordsAux [] l

/-- Constant `MAX_CHUNK_CHARS` from the source. -/
def MAX_CHUNK_CHARS : Nat := 2000

/-- Constant `MIN_CHUNK_CHARS` from the source. -/
def MIN_CHUNK_CHARS : Nat := 50

/-- Constant `STATE_PREFIXES` from the source. -/
def STATE_PREFIXES : List (List Char) :=
  ["ACT".data, "NSW".data, "NT".data, "QLD".data, "SA".data,
   "TAS".data, "VIC".data, "WA".data]

/-- The invisible hair-space separator U+200A used by the marker
convention. -/
def hairSpace : Char := '\u200A'

/-- The marker string for a section identifier:
the Python f-string `" {section_id} "`. -/
def markerOf (sectionId : List Char) : List Char :=
  hairSpace :: (sectionId ++ [hairSpace])

/-- Matcher for `SECTION_ID_RE = ^[A-Z]\d+[A-Z]+\d+$`.  The classes
`[A-Z]` and `\d` are disjoint, so maximal-munch scanning is exactly the
backtracking regex semantics. -/
def isSectionIdTok : List Char → Bool
  | [] => false
  | c :: rest =>
    let d1 := rest.takeWhile Char.isDigit
    let r1 := rest.dropWhile Char.isDigit
    let u1 := r1.takeWhile Char.isUpper
    let r2 := r1.dropWhile Char.isUpper
    let d2 := r2.takeWhile Char.isDigit
    let r3 := r2.dropWhile Char.isDigit
    c.isUpper && !d1.isEmpty && !u1.isEmpty && !d2.isEmpty && r3.isEmpty

/-- Matcher for `SPEC_ID_RE = ^S\d+C\d+$`. -/
def isSpecIdTok : List Char → Bool
  | [] => false
  | c :: rest =>
    let d1 := rest.takeWhile Char.isDigit
    let r1 := rest.dropWhile Char.isDigit
    match r1 with
    | [] => false
    | c2 :: r2 =>
      let d2 := r2.takeWhile Char.isDigit
      let r3 := r2.dropWhile Char.isDigit
      c == 'S' && !d1.isEmpty && c2 == 'C' && !d2.isEmpty && r3.isEmpty

/-- Function `extract_section_id`: first whitespace-separated word of the title
matching `SECTION_ID_RE` or `SPEC_ID_RE`, else `None`. -/
def extract_section_id (title : List Char) : Option (List Char) :=
  (wordsPy title).find? (fun w => isSectionIdTok w || isSpecIdTok w)

/-- A table-of-contents entry `(level, title, page)` as returned by
`doc.get_toc()`; pages are 1-indexed. -/
structure TocEntry where
  level : Nat
  title : List Char
  page : Nat
deriving DecidableEq, Repr

/-- Function `is_state_appendix` from the source. -/
def is_state_appendix (title : List Char) (level : Nat) : Bool :=
  if 2 < level then false
  else
    let first_word := match wordsPy title with | [] => [] | w :: _ => w
    if STATE_PREFIXES.contains (first_word.map Char.toUpper) then true
    else if containsSub title "Schedule".data &&
            STATE_PREFIXES.any (fun s => containsSub title s) then true
    else false

/-- Function `get_part_from_toc`: nearest entry with level ≤ 2 strictly before
index `idx`, scanning backward. -/
def get_part_from_toc (toc : List TocEntry) (idx : Nat) : Option (List Char) :=
  match ((toc.take idx).reverse.find? (fun e => e.level ≤ 2)) with
  | some e => some e.title
  | none => none

/-- Function `extract_section_text` from the source: locate the hair-space
wrapped markers and slice between them, falling back to the whole text
when the section's own marker is absent. -/
def extract_section_text (full_text sectionId : List Char)
    (nextSectionId : Option (List Char)) : List Char :=
  let marker := markerOf sectionId
  match findSub full_text marker with
  | none => full_text
  | some start =>
    match nextSectionId with
    | some nid =>
      match findSubFrom full_text (markerOf nid) (start + marker.length) with
      | some e => stripPy ((full_text.drop start).take (e - start))
      | none => stripPy (full_text.drop start)
    | none => stripPy (full_text.drop start)

/-- Index of the last newline in a list, if any. -/
def lastNewlineIdx : List Char → Option Nat
  | [] => none
  | c :: rest =>
    match lastNewlineIdx rest with
    | some j => some (j + 1)
    | none => if c = '\n' then some 0 else none

/-- One leftmost match of the separator regex `\n\s*\n` of
`re.split(r"\n\s*\n", text)` at the head of the list: returns the
remainder after the (greedy) match.  The final `\n` of the pattern
forces the greedy `\s*` to stop at the last newline of the whitespace
run following the first `\n`. -/
def matchBlank : List Char → Option (List Char)
  | [] => none
  | c :: rest =>
    if c = '\n' then
      match lastNewlineIdx (rest.takeWhile isPyWs) with
      | some j => some (rest.drop (j + 1))
      | none => none
    else none

theorem matchBlank_length_lt {l rem : List Char} (h : matchBlank l = some rem) :
    rem.length < l.length := by
  match l with
  | [] => simp [matchBlank] at h
  | c :: rest =>
    simp only [matchBlank] at h
    split at h
    · split at h
      · cases h
        simp only [List.length_drop, List.length_cons]
        omega
      · cases h
    · cases h

/-- Embedding of `re.split(r"\n\s*\n", text)`: scan left to right, emitting a piece at
each separator match; `cur` is the reversed current piece. -/
def paraSplit (cur : List Char) : List Char → List (List Char)
  | [] => [cur.reverse]
  | c :: rest =>
    match h : matchBlank (c :: rest) with
    | some rem => cur.reverse :: paraSplit [] rem
    | none => paraSplit (c :: cur) rest

termination_by l => l.length
decreasing_by
  · exact matchBlank_length_lt h
  · simp

/-- The paragraph list of `split_long_chunk`:
`re.split(r"\n\s*\n", text)`. -/
def paragraphsOf (text : List Char) : List (List Char) :=
  paraSplit [] text

/-- The paragraph-accumulation loop of `split_long_chunk` (greedy
packing of paragraphs up to `MAX_CHUNK_CHARS`, flushing `current.strip()`
on overflow and at the end when non-empty). -/
def paraAccum (current : List Char) : List (List Char) → List (List Char)
  | [] => if stripPy current ≠ [] then [stripPy current] else []
  | para :: rest =>
    if current ≠ [] ∧ MAX_CHUNK_CHARS < current.length + para.length + 2 then
      stripPy current :: paraAccum para rest
    else
      paraAccum (if current = [] then para else current ++ '\n' :: '\n' :: para) rest

/-- The merge pass of `split_long_chunk`: a fragment shorter than
`MIN_CHUNK_CHARS` (or following one) is merged into the previous
fragment; `acc` holds the merged list in reverse. -/
def mergeLoop (acc : List (List Char)) : List (List Char) → List (List Char)
  | [] => acc.reverse
  | chunk :: rest =>
    match acc with
    | [] => mergeLoop [chunk] rest
    | last :: prev =>
      if last.length < MIN_CHUNK_CHARS ∨ chunk.length < MIN_CHUNK_CHARS then
        mergeLoop ((last ++ '\n' :: '\n' :: chunk) :: prev) rest
      else
        mergeLoop (chunk :: last :: prev) rest

/-- The merged fragment list that `split_long_chunk` builds before the
force-split stage (paragraph split, greedy accumulation, merge pass). -/
def mergedChunks (text : List Char) : List (List Char) :=
  mergeLoop [] (paraAccum [] (paragraphsOf text))

/-- One leftmost match of the separator regex `(?<=[.;])\s+|\n` of
`split_at_sentences` at the current position, given the previous
character of the string (`prev`, for the lookbehind).  `sentSplit`
carries the reversed current piece in `cur`. -/
def sentSplit (prev : Option Char) (cur : List Char) : List Char → List (List Char)
  | [] => [cur.reverse]
  | c :: rest =>
    if (prev = some '.' ∨ prev = some ';') ∧ isPyWs c then
      cur.reverse ::
        sentSplit (some ((rest.takeWhile isPyWs).getLastD c)) []
          (rest.dropWhile isPyWs)
    else if c = '\n' then
      cur.reverse :: sentSplit (some '\n') [] rest
    else
      sentSplit (some c) (c :: cur) rest
termination_by l => l.length
decreasing_by
  · have hle : (rest.dropWhile isPyWs).length ≤ rest.length :=
      List.Sublist.length_le (List.dropWhile_sublist isPyWs)
    simp only [List.length_cons]
    omega
  · simp
  · simp

/-- The sentence list of `split_at_sentences`:
`re.split(r"(?<=[.;])\s+|\n", text)`. -/
def sentencesOf (text : List Char) : List (List Char) :=
  sentSplit none [] text

/-- The sentence-accumulation loop of `split_at_sentences` (skip
whitespace-only sentences, greedy packing up to `MAX_CHUNK_CHARS`). -/
def sentAccum (current : List Char) : List (List Char) → List (List Char)
  | [] => if stripPy current ≠ [] then [stripPy current] else []
  | s :: rest =>
    if stripPy s = [] then sentAccum current rest
    else if current ≠ [] ∧ MAX_CHUNK_CHARS < current.length + s.length + 1 then
      stripPy current :: sentAccum s rest
    else
      sentAccum (if current = [] then s else current ++ ' ' :: s) rest

/-- Function `split_at_sentences` from the source. -/
def split_at_sentences (text : List Char) : List (List Char) :=
  let result := sentAccum [] (sentencesOf text)
  if result.isEmpty then [text] else result

/-- The force-split stage of `split_long_chunk`: any merged fragment
still over `MAX_CHUNK_CHARS` is split at sentence boundaries. -/
def forceSplit : List (List Char) → List (List Char)
  | [] => []
  | chunk :: rest =>
    (if chunk.length ≤ MAX_CHUNK_CHARS then [chunk]
     else split_at_sentences chunk) ++ forceSplit rest

/-- Function `split_long_chunk` from the source. -/
def split_long_chunk (text : List Char) : List (List Char) :=
  if text.length ≤ MAX_CHUNK_CHARS then [text]
  else forceSplit (mergedChunks text)

/-- The post-extraction character cleanup of `chunk_pdf`:
`content.replace(" ", "").replace("\xa0", " ")`. -/
def replaceSpaces (l : List Char) : List Char :=
  (l.filter (fun c => c ≠ hairSpace)).map (fun c => if c = '\u00A0' then ' ' else c)

/-- Embedding of `re.sub(r"\n[ \t]+\n", "\n\n", content)`: collapse whitespace-only
lines into real blank lines.  The classes `[ \t]` and `\n` are disjoint,
so the greedy `[ \t]+` needs no backtracking; scanning resumes after
each non-overlapping match. -/
def collapseBlankRuns : List Char → List Char
  | [] => []
  | c :: rest =>
    if c = '\n' then
      let run := rest.takeWhile (fun x => x = ' ' ∨ x = '\t')
      if run ≠ [] ∧ (rest.drop run.length).head? = some '\n' then
        '\n' :: '\n' :: collapseBlankRuns ((rest.drop run.length).tail)
      else
        '\n' :: collapseBlankRuns rest
    else
      c :: collapseBlankRuns rest
termination_by l => l.length
decreasing_by
  · simp only [List.length_tail, List.length_drop, List.length_cons]
    omega
  · simp
  · simp

/-- Table `VOLUME_CLASSES` from the source (a `KeyError` is raised for any
other volume; `main` restricts the choice to 1 or 2). -/
def applicableClasses (volume : Nat) : List Nat :=
  if volume = 1 then [2, 3, 4, 5, 6, 7, 8, 9]
  else if volume = 2 then [1, 10]
  else []

/-- A chunk record as built by `chunk_pdf` (the `embedding` key is added
later by the collaborator stage and is not part of the core). -/
structure Chunk where
  content : List Char
  volume : Nat
  part : Option (List Char)
  «section» : Option (List Char)
  title : List Char
  applicable_classes : List Nat
  state_specific : Bool
deriving DecidableEq, Repr

/-- The level-3 filter of `chunk_pdf`: walk the TOC carrying the
`state_appendix_started` flag (recomputed at every entry of level ≤ 2),
skip entries while the flag is set, and collect level-3 entries together
with their TOC index. -/
def l3Scan (flag : Bool) (i : Nat) : List TocEntry → List (Nat × TocEntry)
  | [] => []
  | e :: rest =>
    let flag' := if e.level ≤ 2 then is_state_appendix e.title e.level else flag
    if flag' then l3Scan flag' (i + 1) rest
    else if e.level = 3 then (i, e) :: l3Scan flag' (i + 1) rest
    else l3Scan flag' (i + 1) rest

/-- Expression `l3_entries[-1][0] if l3_entries else 0` from the source. -/
def lastL3Idx (l3 : List (Nat × TocEntry)) : Nat :=
  match l3.getLast? with
  | some (i, _) => i
  | none => 0

/-- The content boundary of `chunk_pdf`: the start page of the first
level-≤1 entry after the last collected level-3 entry, else the total
page count. -/
def contentEndPage (toc : List TocEntry) (totalPages lastIdx : Nat) : Nat :=
  match (toc.drop (lastIdx + 1)).find? (fun e => e.level ≤ 1) with
  | some e => e.page
  | none => totalPages

/-- The 0-indexed pages read for a section:
`range(start_page - 1, min(end_page, total_pages))`. -/
def sectionPages (startPage endPage totalPages : Nat) : List Nat :=
  List.range' (startPage - 1) (min endPage totalPages - (startPage - 1))

/-- The chunk-record builder of `chunk_pdf`'s inner loop: `total` is
`len(sub_chunks)` and `i` the running index of `enumerate`. -/
def buildChunks (volume : Nat) (part sectionId : Option (List Char))
    (title : List Char) (total i : Nat) : List (List Char) → List Chunk
  | [] => []
  | sub :: rest =>
    { content := sub
      volume := volume
      part := part
      «section» := sectionId
      title := if total = 1 then title
               else title ++ " (part ".data ++ Nat.toDigits 10 (i + 1) ++ ")".data
      applicable_classes := applicableClasses volume
      state_specific := false } ::
    buildChunks volume part sectionId title total (i + 1) rest

/-- The per-section loop of `chunk_pdf` over the collected level-3
entries: resolve the page range, concatenate non-empty cleaned page
texts, extract the section's text by markers, clean it up, split it and
emit chunk records.  `cep` is the precomputed content-end page. -/
def processEntries (toc : List TocEntry) (totalPages : Nat)
    (pageText : Nat → List Char) (volume cep : Nat) :
    List (Nat × TocEntry) → List Chunk
  | [] => []
  | (tocIdx, e) :: rest =>
    let endPage := match rest.head? with
      | some (_, e2) => e2.page
      | none => cep
    let pages := sectionPages e.page endPage totalPages
    let fullText := List.intercalate ['\n']
      ((pages.map pageText).filter (fun s => !s.isEmpty))
    if stripPy fullText = [] then
      processEntries toc totalPages pageText volume cep rest
    else
      let sectionId := extract_section_id e.title
      let nextId := match rest.head? with
        | some (_, e2) => extract_section_id e2.title
        | none => none
      let content0 := match sectionId with
        | some sid => extract_section_text fullText sid nextId
        | none => fullText
      if stripPy content0 = [] then
        processEntries toc totalPages pageText volume cep rest
      else
        let content := collapseBlankRuns (replaceSpaces content0)
        let subs := split_long_chunk content
        buildChunks volume (get_part_from_toc toc tocIdx) sectionId e.title
            subs.length 0 subs ++
          processEntries toc totalPages pageText volume cep rest

/-- Function `chunk_pdf` from the source, parameterised by the TOC, the page
count and the memoized cleaned-page-text accessor that `fitz` provides
(`get_page_text`). -/
def chunk_pdf (toc : List TocEntry) (totalPages : Nat)
    (pageText : Nat → List Char) (volume : Nat) : List Chunk :=
  let l3 := l3Scan false 0 toc
  let cep := contentEndPage toc totalPages (lastL3Idx l3)
  processEntries toc totalPages pageText volume cep l3

/-- Projection of `chunk_pdf`'s computation: the 0-indexed page list
read for candidate section number `k` (position in the collected
level-3 list). -/
def sectionPagesFor (toc : List TocEntry) (totalPages k : Nat) : List Nat :=
  let l3 := l3Scan false 0 toc
  let cep := contentEndPage toc totalPages (lastL3Idx l3)
  match l3.get? k with
  | none => []
  | some (_, e) =>
    let endPage := match l3.get? (k + 1) with
      | some (_, e2) => e2.page
      | none => cep
    sectionPages e.page endPage totalPages

/-- Recursion behind `sectionExtracts`, mirroring `processEntries`. -/
def sectionExtractsAux (totalPages : Nat) (pageText : Nat → List Char)
    (cep : Nat) : List (Nat × TocEntry) → List (List Char)
  | [] => []
  | (_, e) :: rest =>
    let endPage := match rest.head? with
      | some (_, e2) => e2.page
      | none => cep
    let pages := sectionPages e.page endPage totalPages
    let fullText := List.intercalate ['\n']
      ((pages.map pageText).filter (fun s => !s.isEmpty))
    if stripPy fullText = [] then
      sectionExtractsAux totalPages pageText cep rest
    else
      let sectionId := extract_section_id e.title
      let nextId := match rest.head? with
        | some (_, e2) => extract_section_id e2.title
        | none => none
      let content0 := match sectionId with
        | some sid => extract_section_text fullText sid nextId
        | none => fullText
      content0 :: sectionExtractsAux totalPages pageText cep rest

/-- Projection of `chunk_pdf`'s computation: for every candidate
section whose concatenated page text is non-blank, the result of
`extract_section_text` (before hair-space removal), or the raw
concatenation when the section has no identifier. -/
def sectionExtracts (toc : List TocEntry) (totalPages : Nat)
    (pageText : Nat → List Char) : List (List Char) :=
  let l3 := l3Scan false 0 toc
  let cep := contentEndPage toc totalPages (lastL3Idx l3)
  sectionExtractsAux totalPages pageText cep l3

/-- The externally observable steps of `main`, in order: the PDF-missing
exit, the `chunk_pdf` call, the dry-run printing of the chunk list, the
skip slicing, the `load_env` exit on missing credentials, and the
embedding/upload stage applied to the remaining chunks. -/
inductive MainEvent where
  | exitNoPdf : MainEvent
  | parsePdf : MainEvent
  | dryRunPrint : List Chunk → MainEvent
  | skipApplied : Nat → MainEvent
  | exitMissingEnv : MainEvent
  | embedUpload : List Chunk → MainEvent
deriving DecidableEq, BEq, Repr

/-- Control flow of `main`, as the ordered list of its observable steps.
`pdfExists` models `os.path.exists(args.pdf_path)`, `dryRun` and `skip`
the parsed flags, `envOk` whether all three required environment
variables are set (checked by `load_env`), and `chunks` stands for the
list `chunk_pdf` returns for the given document.  Mirrors `main`:
existence check, then parse/chunk, then the dry-run early return, then
the skip slice, then `load_env`, then embedding and upload. -/
def mainTrace (pdfExists dryRun : Bool) (skip : Nat) (envOk : Bool)
    (chunks : List Chunk) : List MainEvent :=
  if !pdfExists then [MainEvent.exitNoPdf]
  else
    MainEvent.parsePdf ::
      (if dryRun then [MainEvent.dryRunPrint chunks]
       else
         (if 0 < skip then [MainEvent.skipApplied skip] else []) ++
           (if !envOk then [MainEvent.exitMissingEnv]
            else [MainEvent.embedUpload (chunks.drop skip)]))

/-- Predicate `eventBefore a b tr`: holds when some occurrence of `a` is strictly
followed by an occurrence of `b` in the trace `tr`. -/
def eventBefore (a b : MainEvent) : List MainEvent → Bool
  | [] => false
  | e :: rest => (e == a && rest.contains b) || eventBefore a b rest

/-- Whether a step is the embedding/upload stage. -/
def isEmbedUpload : MainEvent → Bool
  | MainEvent.embedUpload _ => true
  | _ => false

theorem stripPy_length_le (l : List Char) : (stripPy l).length ≤ l.length := by
  unfold stripPy
  have h1 : (l.dropWhile isPyWs).length ≤ l.length :=
    List.Sublist.length_le (List.dropWhile_sublist isPyWs)
  have h2 : ((l.dropWhile isPyWs).reverse.dropWhile isPyWs).length ≤
      (l.dropWhile isPyWs).reverse.length :=
    List.Sublist.length_le (List.dropWhile_sublist isPyWs)
  simp only [List.length_reverse] at h2 ⊢
  omega

theorem stripPy_eq_nil_iff (l : List Char) :
    stripPy l = [] ↔ ∀ c ∈ l, isPyWs c := by
  unfold stripPy
  rw [List.reverse_eq_nil_iff, List.dropWhile_eq_nil_iff]
  constructor
  · intro h c hc
    rcases List.mem_append.mp
        (by rw [List.takeWhile_append_dropWhile isPyWs l] ; exact hc :
          c ∈ l.takeWhile isPyWs ++ l.dropWhile isPyWs) with h1 | h1
    · exact List.mem_takeWhile_imp h1
    · exact h c (List.mem_reverse.mpr h1)
  · intro h c hc
    exact h c (List.Sublist.mem (List.mem_reverse.mp hc) (List.dropWhile_sublist isPyWs))

theorem stripPy_ne_nil_iff (l : List Char) :
    stripPy l ≠ [] ↔ ∃ c ∈ l, ¬ isPyWs c := by
  rw [Ne, stripPy_eq_nil_iff]
  push_neg
  simp

theorem findSub_isPrefix {l pat : List Char} {i : Nat}
    (h : findSub l pat = some i) : pat <+: l.drop i := by
  induction l generalizing i with
  | nil =>
    simp only [findSub] at h
    split at h
    · cases h
      rename_i hp
      simpa using List.isPrefixOf_iff_prefix.mp hp
    · cases h
  | cons c t ih =>
    simp only [findSub] at h
    split at h
    · cases h
      rename_i hp
      simpa using List.isPrefixOf_iff_prefix.mp hp
    · rcases Option.map_eq_some'.mp h with ⟨j, hj, rfl⟩
      simpa using ih hj

theorem findSub_min {l pat : List Char} {i : Nat}
    (h : findSub l pat = some i) :
    ∀ j, j < i → ¬ (pat <+: l.drop j) := by
  induction l generalizing i with
  | nil =>
    simp only [findSub] at h
    split at h
    · cases h
      omega
    · cases h
  | cons c t ih =>
    simp only [findSub] at h
    split at h
    · cases h
      omega
    · rcases Option.map_eq_some'.mp h with ⟨k, hk, rfl⟩
      intro j hj
      match j with
      | 0 =>
        rename_i hp
        simpa using fun hpre => hp ( List.isPrefixOf_iff_prefix.mpr hpre)
      | j' + 1 =>
        have := ih hk j' (by omega)
        simpa using this

theorem findSubFrom_bounds {l pat : List Char} {s e : Nat}
    (h : findSubFrom l pat s = some e) :
    s ≤ e ∧ pat <+: l.drop e ∧ ∀ j, s ≤ j → j < e → ¬ (pat <+: l.drop j) := by
  rcases Option.map_eq_some'.mp h with ⟨k, hk, rfl⟩
  refine ⟨by omega, ?_, ?_⟩
  · have := findSub_isPrefix hk
    rwa [List.drop_drop, Nat.add_comm] at this
  · intro j hsj hje
    have := findSub_min hk (j - s) (by omega)
    rw [List.drop_drop] at this
    have hj : s + (j - s) = j := by omega
    rwa [hj] at this

theorem lastNewlineIdx_lt {l : List Char} {j : Nat}
    (h : lastNewlineIdx l = some j) : j < l.length := by
  induction l generalizing j with
  | nil => simp [lastNewlineIdx] at h
  | cons c rest ih =>
    simp only [lastNewlineIdx] at h
    split at h
    · cases h
      rename_i j' hj'
      have := ih hj'
      simp only [List.length_cons]
      omega
    · split at h
      · cases h
        simp
      · cases h

theorem matchBlank_decomp {l rem : List Char} (h : matchBlank l = some rem) :
    ∃ pre, l = pre ++ rem ∧ pre ≠ [] ∧ ∀ c ∈ pre, isPyWs c := by
  match l with
  | [] => simp [matchBlank] at h
  | c :: rest =>
    simp only [matchBlank] at h
    split at h
    · rename_i hc
      split at h
      · rename_i j hj
        cases h
        refine ⟨c :: rest.take (j + 1), ?_, by simp, ?_⟩
        · simp [List.take_append_drop]
        · intro x hx
          rcases List.mem_cons.mp hx with rfl | hx
          · subst hc
            decide
          · have hjlt := lastNewlineIdx_lt hj
            have hpre : (rest.takeWhile isPyWs) <+: rest := List.takeWhile_prefix isPyWs
            rcases hpre with ⟨suf, hsuf⟩
            have htake : rest.take (j + 1) = (rest.takeWhile isPyWs).take (j + 1) := by
              conv_lhs => rw [← hsuf]
              rw [List.take_append_of_le_length (by omega)]
            rw [htake] at hx
            exact List.mem_takeWhile_imp
              (List.Sublist.mem hx (List.take_sublist (j + 1) (rest.takeWhile isPyWs)))
      · cases h
    · cases h

theorem paraSplit_has_nonws : ∀ (cur l : List Char),
    ((∃ c ∈ l, ¬ isPyWs c) ∨ (∃ c ∈ cur, ¬ isPyWs c)) →
    ∃ p ∈ paraSplit cur l, ∃ c ∈ p, ¬ isPyWs c := by
  intro cur l
  induction cur, l using paraSplit.induct with
  | case1 cur =>
    intro h
    rcases h with ⟨c, hc, hnc⟩ | ⟨c, hc, hnc⟩
    · simp at hc
    · exact ⟨cur.reverse, by simp [paraSplit], c, by simpa using hc, hnc⟩
  | case2 cur c rest rem hmb ih =>
    intro h
    have hstep : paraSplit cur (c :: rest) = cur.reverse :: paraSplit [] rem := by
      rw [paraSplit]
      split
      · rename_i rem' hrem'
        rw [hmb] at hrem'
        cases hrem'
        rfl
      · rename_i hnone
        rw [hmb] at hnone
        simp at hnone
    rcases h with ⟨x, hx, hnx⟩ | ⟨x, hx, hnx⟩
    · rcases matchBlank_decomp hmb with ⟨pre, hdec, _, hws⟩
      have hxrem : x ∈ rem := by
        rw [hdec] at hx
        rcases List.mem_append.mp hx with hx | hx
        · exact absurd (hws x hx) hnx
        · exact hx
      rcases ih (Or.inl ⟨x, hxrem, hnx⟩) with ⟨p, hp, w⟩
      exact ⟨p, by rw [hstep] ; exact List.mem_cons_of_mem _ hp, w⟩
    · refine ⟨cur.reverse, by rw [hstep] ; exact List.mem_cons_self _ _, x, by simpa using hx, hnx⟩
  | case3 cur c rest hmb ih =>
    intro h
    have hstep : paraSplit cur (c :: rest) = paraSplit (c :: cur) rest := by
      rw [paraSplit]
      split
      · rename_i rem' hrem'
        rw [hmb] at hrem'
        simp at hrem'
      · rfl
    rw [hstep]
    apply ih
    rcases h with ⟨x, hx, hnx⟩ | ⟨x, hx, hnx⟩
    · rcases List.mem_cons.mp hx with rfl | hx
      · exact Or.inr ⟨x, List.mem_cons_self x cur, hnx⟩
      · exact Or.inl ⟨x, hx, hnx⟩
    · exact Or.inr ⟨x, List.mem_cons_of_mem c hx, hnx⟩

theorem paraAccum_ne_nil : ∀ (l : List (List Char)) (cur : List Char),
    ((∃ p ∈ l, ∃ c ∈ p, ¬ isPyWs c) ∨ (∃ c ∈ cur, ¬ isPyWs c)) →
    paraAccum cur l ≠ [] := by
  intro l
  induction l with
  | nil =>
    intro cur h
    rcases h with ⟨p, hp, _⟩ | ⟨c, hc, hnc⟩
    · simp at hp
    · have : stripPy cur ≠ [] := (stripPy_ne_nil_iff cur).mpr ⟨c, hc, hnc⟩
      simp [paraAccum, this]
  | cons para rest ih =>
    intro cur h
    simp only [paraAccum]
    split
    · simp
    · apply ih
      rcases h with ⟨p, hp, c, hc, hnc⟩ | ⟨c, hc, hnc⟩
      · rcases List.mem_cons.mp hp with rfl | hp
        · right
          refine ⟨c, ?_, hnc⟩
          split
          · exact hc
          · exact List.mem_append_right _ (by simp [hc])
        · exact Or.inl ⟨p, hp, c, hc, hnc⟩
      · right
        refine ⟨c, ?_, hnc⟩
        have hcur : cur ≠ [] := by
          intro hnil
          rw [hnil] at hc
          simp at hc
        simp only [if_neg hcur]
        exact List.mem_append_left _ hc

theorem mergeLoop_ne_nil : ∀ (l acc : List (List Char)),
    (acc ≠ [] ∨ l ≠ []) → mergeLoop acc l ≠ [] := by
  intro l
  induction l with
  | nil =>
    intro acc h
    rcases h with h | h
    · simpa [mergeLoop] using h
    · simp at h
  | cons chunk rest ih =>
    intro acc _
    match acc with
    | [] =>
      simp only [mergeLoop]
      exact ih [chunk] (Or.inl (by simp))
    | last :: prev =>
      simp only [mergeLoop]
      split
      · exact ih _ (Or.inl (by simp))
      · exact ih _ (Or.inl (by simp))

theorem split_at_sentences_ne_nil (t : List Char) : split_at_sentences t ≠ [] := by
  by_cases h : (sentAccum [] (sentencesOf t)).isEmpty
  · simp [split_at_sentences, h]
  · simp only [split_at_sentences, if_neg h]
    simpa using h

theorem forceSplit_ne_nil : ∀ (l : List (List Char)), l ≠ [] → forceSplit l ≠ [] := by
  intro l h
  match l with
  | [] => exact absurd rfl h
  | chunk :: rest =>
    simp only [forceSplit]
    intro hcontra
    rcases List.append_eq_nil.mp hcontra with ⟨h1, _⟩
    split at h1
    · simp at h1
    · exact split_at_sentences_ne_nil chunk h1

theorem mergeLoop_min : ∀ (l acc : List (List Char)),
    (2 ≤ acc.length → ∀ x ∈ acc, MIN_CHUNK_CHARS ≤ x.length) →
    2 ≤ (mergeLoop acc l).length →
    ∀ x ∈ mergeLoop acc l, MIN_CHUNK_CHARS ≤ x.length := by
  intro l
  induction l with
  | nil =>
    intro acc hinv hlen x hx
    simp only [mergeLoop] at hlen hx
    exact hinv (by simpa using hlen) x (List.mem_reverse.mp hx)
  | cons chunk rest ih =>
    intro acc hinv
    match acc with
    | [] =>
      simp only [mergeLoop]
      exact ih [chunk] (by intro h; simp at h)
    | last :: prev =>
      simp only [mergeLoop]
      split
      · apply ih
        intro hlen x hx
        rcases List.mem_cons.mp hx with rfl | hx
        · have hl : MIN_CHUNK_CHARS ≤ last.length := by
            apply hinv (by simpa using hlen) last
            exact List.mem_cons_self _ _
          simp only [List.length_append, List.length_cons]
          omega
        · exact hinv (by simpa using hlen) x (List.mem_cons_of_mem _ hx)
      · rename_i hge
        push_neg at hge
        apply ih
        intro _ x hx
        rcases List.mem_cons.mp hx with rfl | hx
        · omega
        · rcases List.mem_cons.mp hx with rfl | hx
          · omega
          · match prev with
            | [] => simp at hx
            | q :: prev' =>
              apply hinv (by simp) x
              exact List.mem_cons_of_mem _ hx

theorem sentAccum_bound (S : List (List Char)) : ∀ (l : List (List Char)) (cur : List Char),
    (∀ x ∈ l, x ∈ S) →
    (cur = [] ∨ cur.length ≤ MAX_CHUNK_CHARS ∨ cur ∈ S) →
    ∀ c ∈ sentAccum cur l,
      c.length ≤ MAX_CHUNK_CHARS ∨ ∃ s ∈ S, c = stripPy s := by
  intro l
  induction l with
  | nil =>
    intro cur _ hcur c hc
    simp only [sentAccum] at hc
    split at hc
    · rcases List.mem_singleton.mp hc with rfl
      rcases hcur with rfl | hle | hS
      · rename_i hne
        simp [stripPy] at hne
      · exact Or.inl ((stripPy_length_le cur).trans hle)
      · exact Or.inr ⟨cur, hS, rfl⟩
    · simp at hc
  | cons s rest ih =>
    intro cur hsub hcur c hc
    simp only [sentAccum] at hc
    split at hc
    · exact ih cur (fun x hx => hsub x (List.mem_cons_of_mem _ hx)) hcur c hc
    · split at hc
      · rename_i hflush
        rcases List.mem_cons.mp hc with rfl | hc
        · rcases hcur with rfl | hle | hS
          · exact absurd rfl hflush.1
          · exact Or.inl ((stripPy_length_le cur).trans hle)
          · exact Or.inr ⟨cur, hS, rfl⟩
        · exact ih s (fun x hx => hsub x (List.mem_cons_of_mem _ hx))
            (Or.inr (Or.inr (hsub s (List.mem_cons_self _ _)))) c hc
      · rename_i hnoflush
        apply ih _ (fun x hx => hsub x (List.mem_cons_of_mem _ hx)) _ c hc
        by_cases hnil : cur = []
        · simp only [if_pos hnil]
          exact Or.inr (Or.inr (hsub s (List.mem_cons_self _ _)))
        · simp only [if_neg hnil]
          right
          left
          have : ¬ MAX_CHUNK_CHARS < cur.length + s.length + 1 := by
            intro hlt
            exact hnoflush ⟨hnil, hlt⟩
          simp only [List.length_append, List.length_cons]
          omega

theorem split_at_sentences_bound : ∀ (t : List Char), ∀ c ∈ split_at_sentences t,
    c.length ≤ MAX_CHUNK_CHARS ∨ (∃ s ∈ sentencesOf t, c = stripPy s) ∨ c = t := by
  intro t c hc
  by_cases h : (sentAccum [] (sentencesOf t)).isEmpty
  · simp only [split_at_sentences, if_pos h] at hc
    exact Or.inr (Or.inr (List.mem_singleton.mp hc))
  · simp only [split_at_sentences, if_neg h] at hc
    rcases sentAccum_bound (sentencesOf t) (sentencesOf t) []
        (fun x hx => hx) (Or.inl rfl) c hc with h1 | h1
    · exact Or.inl h1
    · exact Or.inr (Or.inl h1)

theorem forceSplit_mem : ∀ (L : List (List Char)), ∀ c ∈ forceSplit L,
    ∃ m ∈ L, (m.length ≤ MAX_CHUNK_CHARS ∧ c = m) ∨
      (MAX_CHUNK_CHARS < m.length ∧ c ∈ split_at_sentences m) := by
  intro L
  induction L with
  | nil => intro c hc; simp [forceSplit] at hc
  | cons chunk rest ih =>
    intro c hc
    simp only [forceSplit] at hc
    rcases List.mem_append.mp hc with hc | hc
    · refine ⟨chunk, List.mem_cons_self _ _, ?_⟩
      split at hc
      · rename_i hle
        exact Or.inl ⟨hle, List.mem_singleton.mp hc⟩
      · rename_i hgt
        exact Or.inr ⟨by omega, hc⟩
    · rcases ih c hc with ⟨m, hm, hprop⟩
      exact ⟨m, List.mem_cons_of_mem _ hm, hprop⟩

theorem buildChunks_state : ∀ (subs : List (List Char)) (volume : Nat)
    (part sectionId : Option (List Char)) (title : List Char) (total i : Nat),
    ∀ c ∈ buildChunks volume part sectionId title total i subs,
      c.state_specific = false := by
  intro subs
  induction subs with
  | nil => intro _ _ _ _ _ _ c hc; simp [buildChunks] at hc
  | cons sub rest ih =>
    intro volume part sectionId title total i c hc
    simp only [buildChunks] at hc
    rcases List.mem_cons.mp hc with rfl | hc
    · rfl
    · exact ih volume part sectionId title total (i + 1) c hc

theorem processEntries_state : ∀ (l3 : List (Nat × TocEntry)) (toc : List TocEntry)
    (totalPages : Nat) (pageText : Nat → List Char) (volume cep : Nat),
    ∀ c ∈ processEntries toc totalPages pageText volume cep l3,
      c.state_specific = false := by
  intro l3
  induction l3 with
  | nil => intro _ _ _ _ _ c hc; simp [processEntries] at hc
  | cons p rest ih =>
    intro toc totalPages pageText volume cep c hc
    obtain ⟨tocIdx, e⟩ := p
    simp only [processEntries] at hc
    split at hc
    · exact ih toc totalPages pageText volume cep c hc
    · split at hc
      · exact ih toc totalPages pageText volume cep c hc
      · rcases List.mem_append.mp hc with hc | hc
        · exact buildChunks_state _ _ _ _ _ _ _ c hc
        · exact ih toc totalPages pageText volume cep c hc

theorem markerOf_ne_nil (s : List Char) : markerOf s ≠ [] := by
  simp [markerOf]

theorem markerOf_length (s : List Char) : (markerOf s).length = s.length + 2 := by
  simp [markerOf]

theorem isInfix_drop_position {pat mid : List Char} (h : pat <:+: mid) :
    ∃ j, pat <+: mid.drop j ∧ j + pat.length ≤ mid.length := by
  rcases h with ⟨u, v, huv⟩
  refine ⟨u.length, ?_, ?_⟩
  · have hmid : mid.drop u.length = pat ++ v := by
      rw [← huv, List.append_assoc, List.drop_left]
    rw [hmid]
    exact ⟨v, rfl⟩
  · rw [← huv]
    simp

theorem extract_slice_decomp : ∀ (full s n : List Char) (start e : Nat),
    findSub full (markerOf s) = some start →
    findSubFrom full (markerOf n) (start + (markerOf s).length) = some e →
    ∃ mid, extract_section_text full s (some n) = stripPy (markerOf s ++ mid) ∧
      ¬ ((markerOf n) <:+: mid) := by
  intro full s n start e h1 h2
  have hval : extract_section_text full s (some n) =
      stripPy ((full.drop start).take (e - start)) := by
    simp only [extract_section_text, h1, h2]
  obtain ⟨hse, _, hmin⟩ := findSubFrom_bounds h2
  have hpre : markerOf s <+: full.drop start := findSub_isPrefix h1
  rcases hpre with ⟨rest0, hrest0⟩
  have hrest0' : rest0 = full.drop (start + (markerOf s).length) := by
    have := congrArg (List.drop (markerOf s).length) hrest0
    rw [List.drop_left, List.drop_drop] at this
    exact this
  have hslice : (full.drop start).take (e - start) =
      markerOf s ++ rest0.take (e - start - (markerOf s).length) := by
    rw [← hrest0, List.take_append_eq_append_take,
      List.take_of_length_le (by omega)]
  refine ⟨rest0.take (e - start - (markerOf s).length),
    by rw [hval, hslice], ?_⟩
  intro hinf
  rcases isInfix_drop_position hinf with ⟨j, hjpre, hjlen⟩
  have htk : (rest0.take (e - start - (markerOf s).length)).drop j =
      (rest0.drop j).take (e - start - (markerOf s).length - j) := by
    rw [List.drop_take]
  rw [htk] at hjpre
  have hj2 : markerOf n <+: rest0.drop j :=
    hjpre.trans ( List.take_prefix _ _)
  rw [hrest0', List.drop_drop] at hj2
  have hKle : (rest0.take (e - start - (markerOf s).length)).length ≤
      e - start - (markerOf s).length := by
    simp
  have hmn1 : 1 ≤ (markerOf n).length := by
    rw [markerOf_length]
    omega
  exact hmin (start + (markerOf s).length + j) (by omega) (by omega) hj2

/-! Evaluation lemmas for settling the claims on concrete oversized
inputs, where direct kernel evaluation of 2000-character lists is not
feasible: the pipeline is evaluated symbolically on inputs of known
shape. -/

theorem stripPy_eq_self {l : List Char}
    (h1 : ∀ c, l.head? = some c → isPyWs c = false)
    (h2 : ∀ c, l.getLast? = some c → isPyWs c = false) :
    stripPy l = l := by
  match l with
  | [] => rfl
  | c :: t =>
    unfold stripPy
    rw [List.dropWhile_cons, if_neg (by simp [h1 c rfl])]
    have hlast : ((c :: t).reverse).head? = some ((c :: t).getLast (by simp)) := by
      rw [List.head?_reverse, List.getLast?_eq_getLast]
    rcases hrev : (c :: t).reverse with _ | ⟨d, r⟩
    · simp at hrev
    · have hd : isPyWs d = false := by
        apply h2
        rw [← List.head?_reverse, hrev]
        rfl
      rw [List.dropWhile_cons, if_neg (by simp [hd])]
      rw [← hrev, List.reverse_reverse]

theorem findSub_eq_none_of_head_notMem {l pat : List Char} {p : Char}
    (hpat : pat.head? = some p) (hmem : p ∉ l) : findSub l pat = none := by
  induction l with
  | nil =>
    match pat, hpat with
    | q :: pr, _ =>
      simp [findSub, List.isPrefixOf]
  | cons c t ih =>
    match pat, hpat with
    | q :: pr, hq =>
      have hqp : q = p := by simpa using hq
      subst hqp
      have hqc : (q == c) = false := by
        simp only [beq_eq_false_iff_ne, ne_eq]
        intro hqc
        exact hmem (by rw [hqc] ; exact List.mem_cons_self _ _)
      simp only [findSub, List.isPrefixOf, hqc, Bool.false_and]
      rw [if_neg (by simp)]
      rw [ih (fun hm => hmem (List.mem_cons_of_mem _ hm))]
      rfl

theorem paraSplit_no_newline : ∀ (t cur : List Char), (∀ c ∈ t, c ≠ '\n') →
    paraSplit cur t = [cur.reverse ++ t] := by
  intro t
  induction t with
  | nil => intro cur _; simp [paraSplit]
  | cons c rest ih =>
    intro cur h
    have hc : c ≠ '\n' := h c (List.mem_cons_self _ _)
    have hmb : matchBlank (c :: rest) = none := by
      simp [matchBlank, hc]
    rw [paraSplit]
    split
    · rename_i rem hrem
      rw [hmb] at hrem
      cases hrem
    · rw [ih (c :: cur) (fun x hx => h x (List.mem_cons_of_mem _ hx))]
      simp

theorem paraSplit_one_blank : ∀ (xs cur : List Char) (y : Char) (ys : List Char),
    (∀ c ∈ xs, c ≠ '\n') → (∀ c ∈ ys, c ≠ '\n') → isPyWs y = false →
    paraSplit cur (xs ++ '\n' :: '\n' :: y :: ys) =
      [cur.reverse ++ xs, y :: ys] := by
  intro xs
  induction xs with
  | nil =>
    intro cur y ys _ hys hy
    have hrun : (('\n' :: y :: ys).takeWhile isPyWs) = ['\n'] := by
      rw [List.takeWhile_cons, if_pos (by decide), List.takeWhile_cons,
        if_neg (by simp [hy])]
    have hmb : matchBlank ('\n' :: '\n' :: y :: ys) = some (y :: ys) := by
      simp only [matchBlank, if_pos rfl, hrun]
      rfl
    rw [List.nil_append, paraSplit]
    split
    · rename_i rem hrem
      rw [hmb] at hrem
      cases hrem
      rw [paraSplit_no_newline (y :: ys) []
        (by
          intro c hc
          rcases List.mem_cons.mp hc with rfl | hc
          · intro hcn
            rw [hcn] at hy
            exact absurd hy (by decide)
          · exact hys c hc)]
      simp
    · rename_i hrem
      rw [hmb] at hrem
      cases hrem
  | cons x xs ih =>
    intro cur y ys hxs hys hy
    have hx : x ≠ '\n' := hxs x (List.mem_cons_self _ _)
    have hmb : matchBlank (x :: (xs ++ '\n' :: '\n' :: y :: ys)) = none := by
      simp [matchBlank, hx]
    rw [List.cons_append, paraSplit]
    split
    · rename_i rem hrem
      rw [hmb] at hrem
      cases hrem
    · rw [ih (x :: cur) y ys (fun c hc => hxs c (List.mem_cons_of_mem _ hc)) hys hy]
      simp

/-- The lookbehind state after consuming `xs` with previous state `p`. -/
def lastPrev (xs : List Char) (p : Option Char) : Option Char :=
  match xs.getLast? with
  | some c => some c
  | none => p

theorem sentSplit_skip : ∀ (xs : List Char) (p : Option Char) (cur r : List Char),
    (∀ c ∈ xs, isPyWs c = false ∧ c ≠ '\n') →
    sentSplit p cur (xs ++ r) = sentSplit (lastPrev xs p) (xs.reverse ++ cur) r := by
  intro xs
  induction xs with
  | nil => intro p cur r _; simp [lastPrev]
  | cons x xs ih =>
    intro p cur r h
    obtain ⟨hx1, hx2⟩ := h x (List.mem_cons_self _ _)
    rw [List.cons_append, sentSplit]
    rw [if_neg (by simp [hx1]), if_neg hx2]
    rw [ih (some x) (x :: cur) r (fun c hc => h c (List.mem_cons_of_mem _ hc))]
    have hlp : lastPrev xs (some x) = lastPrev (x :: xs) p := by
      unfold lastPrev
      rw [List.getLast?_cons]
      rcases hxl : xs.getLast? with _ | c
      · simp [hxl]
      · simp [hxl]
    rw [hlp]
    simp

theorem mem_of_getLast?_eq {l : List Char} {c : Char}
    (h : l.getLast? = some c) : c ∈ l := by
  rcases List.mem_getLast?_eq_getLast (Option.mem_def.mpr h) with ⟨hne, rfl⟩
  exact List.getLast_mem hne

theorem head?_replicate_append {n : Nat} {a : Char} {l : List Char}
    (h : 0 < n) : (List.replicate n a ++ l).head? = some a := by
  cases n with
  | zero => omega
  | succ m => simp [List.replicate_succ]

theorem collapseBlankRuns_no_newline : ∀ (l : List Char),
    (∀ c ∈ l, c ≠ '\n') → collapseBlankRuns l = l := by
  intro l
  induction l with
  | nil => intro _; rw [collapseBlankRuns]
  | cons c rest ih =>
    intro h
    rw [collapseBlankRuns]
    split
    · exact absurd (by assumption) (h c (List.mem_cons_self _ _))
    · rw [ih (fun x hx => h x (List.mem_cons_of_mem _ hx))]

theorem replaceSpaces_eq_self {l : List Char}
    (h : ∀ c ∈ l, c ≠ hairSpace ∧ c ≠ ' ') : replaceSpaces l = l := by
  unfold replaceSpaces
  rw [List.filter_eq_self.mpr (by intro c hc; simpa using (h c hc).1)]
  conv_rhs => rw [← List.map_id l]
  apply List.map_congr_left
  intro c hc
  simp [(h c hc).2]

theorem sentencesOf_shape (k : Nat) (b : Char) (bs : List Char)
    (hb : isPyWs b = false)
    (hbs : ∀ c ∈ bs, isPyWs c = false ∧ c ≠ '\n') :
    sentencesOf (List.replicate k 'a' ++ '.' :: ' ' :: b :: bs) =
      [List.replicate k 'a' ++ ['.'], b :: bs] := by
  have hb2 : b ≠ '\n' := by
    intro hbn
    rw [hbn] at hb
    exact absurd hb (by decide)
  have hxs : ∀ c ∈ List.replicate k 'a' ++ ['.'], isPyWs c = false ∧ c ≠ '\n' := by
    intro c hc
    rcases List.mem_append.mp hc with hc | hc
    · rw [List.eq_of_mem_replicate hc]
      exact ⟨by decide, by decide⟩
    · rcases List.mem_singleton.mp hc with rfl
      exact ⟨by decide, by decide⟩
  have hbbs : ∀ c ∈ b :: bs, isPyWs c = false ∧ c ≠ '\n' := by
    intro c hc
    rcases List.mem_cons.mp hc with rfl | hc
    · exact ⟨hb, hb2⟩
    · exact hbs c hc
  have hassoc : List.replicate k 'a' ++ '.' :: ' ' :: b :: bs =
      (List.replicate k 'a' ++ ['.']) ++ (' ' :: b :: bs) := by
    simp
  unfold sentencesOf
  rw [hassoc, sentSplit_skip _ none [] _ hxs]
  have hlp : lastPrev (List.replicate k 'a' ++ ['.']) none = some '.' := by
    unfold lastPrev
    rw [List.getLast?_concat]
  rw [hlp, sentSplit]
  rw [if_pos ⟨Or.inl rfl, by decide⟩]
  have htw : (b :: bs).takeWhile isPyWs = [] := by
    rw [List.takeWhile_cons, if_neg (by simp [hb])]
  have hdw : (b :: bs).dropWhile isPyWs = b :: bs := by
    rw [List.dropWhile_cons, if_neg (by simp [hb])]
  rw [htw, hdw]
  have hskip2 : sentSplit (some (([] : List Char).getLastD ' ')) [] ((b :: bs) ++ []) =
      sentSplit (lastPrev (b :: bs) (some (([] : List Char).getLastD ' '))) ((b :: bs).reverse ++ []) [] :=
    sentSplit_skip (b :: bs) _ [] [] hbbs
  rw [List.append_nil] at hskip2
  rw [hskip2, sentSplit]
  simp

theorem sentAccum_two (s1 s2 : List Char)
    (h1 : stripPy s1 = s1) (h2 : stripPy s2 = s2)
    (hne1 : s1 ≠ []) (hne2 : s2 ≠ [])
    (hlen : MAX_CHUNK_CHARS < s1.length + s2.length + 1) :
    sentAccum [] [s1, s2] = [s1, s2] := by
  simp only [sentAccum]
  simp [h1, h2, hne1, hne2, hlen]

theorem paraAccum_one (t : List Char) :
    paraAccum [] [t] = if stripPy t ≠ [] then [stripPy t] else [] := by
  simp only [paraAccum]
  simp

theorem paraAccum_two (p1 p2 : List Char)
    (h1 : stripPy p1 = p1) (h2 : stripPy p2 = p2)
    (hne1 : p1 ≠ []) (hne2 : p2 ≠ [])
    (hlen : MAX_CHUNK_CHARS < p1.length + p2.length + 2) :
    paraAccum [] [p1, p2] = [p1, p2] := by
  simp only [paraAccum]
  simp [h1, h2, hne1, hne2, hlen]

theorem mergeLoop_one (m : List Char) : mergeLoop [] [m] = [m] := by
  simp [mergeLoop]

theorem mergeLoop_two (m1 m2 : List Char)
    (h1 : ¬ m1.length < MIN_CHUNK_CHARS) (h2 : ¬ m2.length < MIN_CHUNK_CHARS) :
    mergeLoop [] [m1, m2] = [m1, m2] := by
  simp only [mergeLoop]
  rw [if_neg (by omega)]
  simp [mergeLoop]

theorem forceSplit_one_over {m : List Char} (h : MAX_CHUNK_CHARS < m.length) :
    forceSplit [m] = split_at_sentences m := by
  simp only [forceSplit]
  rw [if_neg (by omega)]
  simp

theorem split_long_chunk_shape (k : Nat) (b : Char) (bs : List Char)
    (hk : 0 < k) (hb : isPyWs b = false)
    (hbs : ∀ c ∈ bs, isPyWs c = false ∧ c ≠ '\n')
    (hover : MAX_CHUNK_CHARS < k + bs.length + 3) :
    split_long_chunk (List.replicate k 'a' ++ '.' :: ' ' :: b :: bs) =
      [List.replicate k 'a' ++ ['.'], b :: bs] := by
  have hb2 : b ≠ '\n' := by
    intro hbn
    rw [hbn] at hb
    exact absurd hb (by decide)
  have hlen : (List.replicate k 'a' ++ '.' :: ' ' :: b :: bs).length =
      k + bs.length + 3 := by
    simp only [List.length_append, List.length_replicate, List.length_cons]
    omega
  have hnonl : ∀ c ∈ List.replicate k 'a' ++ '.' :: ' ' :: b :: bs, c ≠ '\n' := by
    intro c hc
    rcases List.mem_append.mp hc with hc | hc
    · rw [List.eq_of_mem_replicate hc]
      decide
    · rcases List.mem_cons.mp hc with rfl | hc
      · decide
      · rcases List.mem_cons.mp hc with rfl | hc
        · decide
        · rcases List.mem_cons.mp hc with rfl | hc
          · exact hb2
          · exact (hbs c hc).2
  have hlastbs : ∀ c, (b :: bs).getLast? = some c → isPyWs c = false := by
    intro c hc
    have hcmem := mem_of_getLast?_eq hc
    rcases List.mem_cons.mp hcmem with rfl | hcm
    · exact hb
    · exact (hbs c hcm).1
  have hstrip : stripPy (List.replicate k 'a' ++ '.' :: ' ' :: b :: bs) =
      List.replicate k 'a' ++ '.' :: ' ' :: b :: bs := by
    apply stripPy_eq_self
    · intro c hc
      rw [head?_replicate_append hk] at hc
      cases hc
      decide
    · intro c hc
      rw [List.getLast?_append_of_ne_nil _ (by simp)] at hc
      have : ('.' :: ' ' :: b :: bs).getLast? = (b :: bs).getLast? := by
        rw [show ('.' :: ' ' :: b :: bs) = ['.', ' '] ++ (b :: bs) by simp,
          List.getLast?_append_of_ne_nil _ (by simp)]
      rw [this] at hc
      exact hlastbs c hc
  have hstrip1 : stripPy (List.replicate k 'a' ++ ['.']) =
      List.replicate k 'a' ++ ['.'] := by
    apply stripPy_eq_self
    · intro c hc
      rw [head?_replicate_append hk] at hc
      cases hc
      decide
    · intro c hc
      rw [List.getLast?_concat] at hc
      cases hc
      decide
  have hstrip2 : stripPy (b :: bs) = b :: bs := by
    apply stripPy_eq_self
    · intro c hc
      simp only [List.head?_cons] at hc
      cases hc
      exact hb
    · exact hlastbs
  unfold split_long_chunk
  rw [if_neg (by rw [hlen] ; omega)]
  unfold mergedChunks paragraphsOf
  rw [paraSplit_no_newline _ [] hnonl]
  simp only [List.reverse_nil, List.nil_append]
  have htne : List.replicate k 'a' ++ '.' :: ' ' :: b :: bs ≠ [] := by simp
  rw [paraAccum_one, if_pos (by rw [hstrip] ; exact htne)]
  rw [hstrip, mergeLoop_one, forceSplit_one_over (by rw [hlen] ; omega)]
  unfold split_at_sentences
  rw [sentencesOf_shape k b bs hb hbs]
  rw [sentAccum_two _ _ hstrip1 hstrip2 (by simp) (by simp)
    (by simp only [List.length_append, List.length_replicate,
          List.length_singleton, List.length_cons] ; omega)]
  rw [if_neg (by simp)]

theorem extract_falls_back {t sid : List Char}
    (hnohair : ∀ c ∈ t, c ≠ hairSpace) :
    extract_section_text t sid none = t := by
  have hfind : findSub t (markerOf sid) = none := by
    apply findSub_eq_none_of_head_notMem (p := hairSpace)
    · rfl
    · intro hmem
      exact hnohair hairSpace hmem rfl
  simp only [extract_section_text, hfind]

theorem chunk_pdf_single (title t : List Char) (volume : Nat)
    (hstr : stripPy t = t) (htne : t ≠ [])
    (hnohair : ∀ c ∈ t, c ≠ hairSpace) (hnonbsp : ∀ c ∈ t, c ≠ ' ')
    (hnonl : ∀ c ∈ t, c ≠ '\n') :
    chunk_pdf [⟨3, title, 1⟩] 1 (fun _ => t) volume =
      buildChunks volume none (extract_section_id title) title
        (split_long_chunk t).length 0 (split_long_chunk t) := by
  have hl3 : l3Scan false 0 [⟨3, title, 1⟩] = [(0, ⟨3, title, 1⟩)] := by
    simp [l3Scan]
  have hcep : contentEndPage [⟨3, title, 1⟩] 1 (lastL3Idx [(0, ⟨3, title, 1⟩)]) = 1 := by
    simp [contentEndPage, lastL3Idx]
  unfold chunk_pdf
  show processEntries [⟨3, title, 1⟩] 1 (fun _ => t) volume
      (contentEndPage [⟨3, title, 1⟩] 1
        (lastL3Idx (l3Scan false 0 [⟨3, title, 1⟩])))
      (l3Scan false 0 [⟨3, title, 1⟩]) =
    buildChunks volume none (extract_section_id title) title
      (split_long_chunk t).length 0 (split_long_chunk t)
  rw [hl3, hcep]
  simp only [processEntries, List.head?_nil]
  have hpages : sectionPages 1 1 1 = [0] := rfl
  rw [hpages]
  have hfull : List.intercalate ['\n']
      (([0].map (fun _ => t)).filter (fun s => !s.isEmpty)) = t := by
    have : t.isEmpty = false := by simpa using htne
    simp [List.intercalate, this]
  rw [hfull]
  rw [if_neg (by rw [hstr] ; exact htne)]
  have hc0 : (match extract_section_id title with
      | some sid => extract_section_text t sid none
      | none => t) = t := by
    rcases hid : extract_section_id title with _ | sid
    · rfl
    · exact extract_falls_back hnohair
  rw [hc0]
  rw [if_neg (by rw [hstr] ; exact htne)]
  have hrepl : replaceSpaces t = t :=
    replaceSpaces_eq_self (fun c hc => ⟨hnohair c hc, hnonbsp c hc⟩)
  have hcoll : collapseBlankRuns (replaceSpaces t) = t := by
    rw [hrepl]
    exact collapseBlankRuns_no_newline t hnonl
  rw [hcoll]
  have hpart : get_part_from_toc [⟨3, title, 1⟩] 0 = none := by
    simp [get_part_from_toc]
  rw [hpart, List.append_nil]

/-! Concrete instances on which the claims are settled. -/

/-- A section text consisting of one 2001-character sentence followed by
a short one (2003 characters in total). -/
def contentC1 : List Char := List.replicate 2000 'a' ++ '.' :: ' ' :: 'b' :: []

def tocC1 : List TocEntry := [⟨3, "A1A1 T".data, 1⟩]

theorem contentC1_chars : ∀ c ∈ contentC1, c = 'a' ∨ c = '.' ∨ c = ' ' ∨ c = 'b' := by
  unfold contentC1
  intro c hc
  rcases List.mem_append.mp hc with hc | hc
  · exact Or.inl (List.eq_of_mem_replicate hc)
  · right
    simpa using hc

theorem contentC1_strip : stripPy contentC1 = contentC1 := by
  unfold contentC1
  apply stripPy_eq_self
  · intro c hc
    rw [head?_replicate_append (by omega)] at hc
    cases hc
    decide
  · intro c hc
    rw [List.getLast?_append_of_ne_nil _ (by simp)] at hc
    rw [show ('.' :: ' ' :: 'b' :: []).getLast? = some 'b' from rfl] at hc
    cases hc
    decide

theorem split_C1 : split_long_chunk contentC1 =
    [List.replicate 2000 'a' ++ ['.'], ['b']] := by
  exact split_long_chunk_shape 2000 'b' [] (by omega) (by decide)
    (by intro c hc; simp at hc) (by simp [MAX_CHUNK_CHARS])

theorem chunks_C1 : chunk_pdf tocC1 1 (fun _ => contentC1) 2 =
    buildChunks 2 none (some "A1A1".data) "A1A1 T".data 2 0
      [List.replicate 2000 'a' ++ ['.'], ['b']] := by
  rw [show tocC1 = [⟨3, "A1A1 T".data, 1⟩] from rfl]
  rw [chunk_pdf_single "A1A1 T".data contentC1 2 contentC1_strip
      (by simp [contentC1])
      (fun c hc => by rcases contentC1_chars c hc with rfl | rfl | rfl | rfl <;> decide)
      (fun c hc => by rcases contentC1_chars c hc with rfl | rfl | rfl | rfl <;> decide)
      (fun c hc => by rcases contentC1_chars c hc with rfl | rfl | rfl | rfl <;> decide)]
  rw [split_C1, show extract_section_id "A1A1 T".data = some "A1A1".data from by decide]
  rfl

/-- A section text of 2002 characters whose force-split produces a
1999-character and a 2-character fragment. -/
def contentC3 : List Char := List.replicate 1998 'a' ++ '.' :: ' ' :: 'b' :: ['b']

def tocC3 : List TocEntry := [⟨3, "B1B1 U".data, 1⟩]

theorem contentC3_chars : ∀ c ∈ contentC3, c = 'a' ∨ c = '.' ∨ c = ' ' ∨ c = 'b' := by
  unfold contentC3
  intro c hc
  rcases List.mem_append.mp hc with hc | hc
  · exact Or.inl (List.eq_of_mem_replicate hc)
  · right
    simpa using hc

theorem contentC3_strip : stripPy contentC3 = contentC3 := by
  unfold contentC3
  apply stripPy_eq_self
  · intro c hc
    rw [head?_replicate_append (by omega)] at hc
    cases hc
    decide
  · intro c hc
    rw [List.getLast?_append_of_ne_nil _ (by simp)] at hc
    rw [show ('.' :: ' ' :: 'b' :: ['b']).getLast? = some 'b' from rfl] at hc
    cases hc
    decide

theorem split_C3 : split_long_chunk contentC3 =
    [List.replicate 1998 'a' ++ ['.'], ['b', 'b']] := by
  exact split_long_chunk_shape 1998 'b' ['b'] (by omega) (by decide)
    (by intro c hc; rcases List.mem_singleton.mp hc with rfl; exact ⟨by decide, by decide⟩)
    (by simp [MAX_CHUNK_CHARS])

theorem chunks_C3 : chunk_pdf tocC3 1 (fun _ => contentC3) 2 =
    buildChunks 2 none (some "B1B1".data) "B1B1 U".data 2 0
      [List.replicate 1998 'a' ++ ['.'], ['b', 'b']] := by
  rw [show tocC3 = [⟨3, "B1B1 U".data, 1⟩] from rfl]
  rw [chunk_pdf_single "B1B1 U".data contentC3 2 contentC3_strip
      (by simp [contentC3])
      (fun c hc => by rcases contentC3_chars c hc with rfl | rfl | rfl | rfl <;> decide)
      (fun c hc => by rcases contentC3_chars c hc with rfl | rfl | rfl | rfl <;> decide)
      (fun c hc => by rcases contentC3_chars c hc with rfl | rfl | rfl | rfl <;> decide)]
  rw [split_C3, show extract_section_id "B1B1 U".data = some "B1B1".data from by decide]
  rfl

theorem stripPy_replicate {n : Nat} {a : Char} (h : isPyWs a = false) :
    stripPy (List.replicate n a) = List.replicate n a := by
  apply stripPy_eq_self
  · intro c hc
    cases n with
    | zero => simp at hc
    | succ m =>
      rw [List.replicate_succ] at hc
      simp only [List.head?_cons] at hc
      cases hc
      exact h
  · intro c hc
    rw [show c = a from List.eq_of_mem_replicate (mem_of_getLast?_eq hc)]
    exact h

/-- A 2003-character text with one blank line: the merge pass keeps two
fragments, both of length at least `MIN_CHUNK_CHARS`. -/
def tC3w : List Char := List.replicate 60 'x' ++ '\n' :: '\n' :: List.replicate 1941 'y'

theorem merged_tC3w : mergedChunks tC3w =
    [List.replicate 60 'x', List.replicate 1941 'y'] := by
  unfold mergedChunks paragraphsOf tC3w
  rw [show List.replicate 1941 'y' = 'y' :: List.replicate 1940 'y' from rfl]
  rw [paraSplit_one_blank (List.replicate 60 'x') [] 'y' (List.replicate 1940 'y')
    (by intro c hc; rw [List.eq_of_mem_replicate hc]; decide)
    (by intro c hc; rw [List.eq_of_mem_replicate hc]; decide)
    (by decide)]
  simp only [List.reverse_nil, List.nil_append]
  rw [show ('y' :: List.replicate 1940 'y') = List.replicate 1941 'y' from rfl]
  rw [paraAccum_two _ _ (stripPy_replicate (by decide)) (stripPy_replicate (by decide))
    (by simp) (by simp)
    (by simp only [List.length_replicate] ; simp [MAX_CHUNK_CHARS])]
  rw [mergeLoop_two _ _
    (by simp only [List.length_replicate] ; simp [MIN_CHUNK_CHARS])
    (by simp only [List.length_replicate] ; simp [MIN_CHUNK_CHARS])]

/-! Claim theorems. -/

/-- C1 (counterexample): a 2003-character section consisting of a
2001-character sentence followed by a short one is emitted by
`chunk_pdf` as two chunks, the first of which has 2001 characters —
more than `MAX_CHUNK_CHARS` — even though sentence splitting did
produce fragments and the oversized chunk is not the whole original
text.  This refutes the claim that only the degenerate
no-fragments case can exceed the bound. -/
theorem C1_counterexample :
    ((chunk_pdf tocC1 1 (fun _ => contentC1) 2).map (fun c => c.content.length)
        = [2001, 1]) ∧
    ((chunk_pdf tocC1 1 (fun _ => contentC1) 2).map (fun c => c.content)
        = [List.replicate 2000 'a' ++ ['.'], ['b']]) ∧
    List.replicate 2000 'a' ++ ['.'] ≠ contentC1 := by
  refine ⟨?_, ?_, ?_⟩
  · rw [chunks_C1]
    simp [buildChunks]
  · rw [chunks_C1]
    simp [buildChunks]
  · intro h
    have := congrArg List.length h
    simp only [contentC1, List.length_append, List.length_replicate,
      List.length_cons, List.length_singleton, List.length_nil] at this
    omega

/-- C1 (amended): every chunk `split_long_chunk` produces has at most
`MAX_CHUNK_CHARS` characters, except chunks coming from a merged
fragment longer than the maximum which are either (the whitespace-strip
of) one single sentence of that fragment — a sentence can exceed the
maximum on its own — or the whole fragment when sentence splitting
yields no non-blank fragments. -/
theorem C1_amended : ∀ (t : List Char), ∀ c ∈ split_long_chunk t,
    c.length ≤ MAX_CHUNK_CHARS ∨
      ∃ m ∈ mergedChunks t, MAX_CHUNK_CHARS < m.length ∧
        ((∃ s ∈ sentencesOf m, c = stripPy s) ∨ c = m) := by
  intro t c hc
  by_cases hlen : t.length ≤ MAX_CHUNK_CHARS
  · left
    simp only [split_long_chunk, if_pos hlen] at hc
    rcases List.mem_singleton.mp hc with rfl
    exact hlen
  · simp only [split_long_chunk, if_neg hlen] at hc
    rcases forceSplit_mem _ c hc with ⟨m, hm, hcase⟩
    rcases hcase with ⟨hle, rfl⟩ | ⟨hgt, hcs⟩
    · exact Or.inl hle
    · rcases split_at_sentences_bound m c hcs with h | h | h
      · exact Or.inl h
      · exact Or.inr ⟨m, hm, hgt, Or.inl h⟩
      · exact Or.inr ⟨m, hm, hgt, Or.inr h⟩

/-- C1 (witness): the amended theorem applied to a small concrete
input. -/
theorem C1_witness :
    "abc".data.length ≤ MAX_CHUNK_CHARS ∨
      ∃ m ∈ mergedChunks "abc".data, MAX_CHUNK_CHARS < m.length ∧
        ((∃ s ∈ sentencesOf m, "abc".data = stripPy s) ∨ "abc".data = m) :=
  C1_amended "abc".data "abc".data (by decide)

def tocC2 : List TocEntry := [⟨3, "A1A1 First".data, 1⟩, ⟨3, "B1B1 Second".data, 1⟩]

/-- A cleaned page text carrying the second section's marker strictly
inside it.  It begins and ends with non-whitespace characters, so it is
strip-fixed — `clean_page_text` ends with `text.strip()`, hence every
reachable page text has this property, and this one is a possible
output of the cleaning stage. -/
def pageC2 : List Char := "intro".data ++ markerOf "B1B1".data ++ " hello".data

/-- C2 (counterexample): two candidate sections share page 1; the first
section's own marker is absent from the cleaned page text, so
`extract_section_text` falls back to the whole concatenation, which
contains the second section's identifier marker ` B1B1 ` (lying
strictly inside the strip-fixed page text) as a substring.  This
refutes the claim that an extracted section text never contains another
section's marker. -/
theorem C2_counterexample :
    stripPy pageC2 = pageC2 ∧
    (sectionExtracts tocC2 1 (fun _ => pageC2)).head? = some pageC2 ∧
    containsSub pageC2 (markerOf "B1B1".data) = true ∧
    extract_section_id "B1B1 Second".data = some "B1B1".data := by
  refine ⟨by decide, by decide, by decide, by decide⟩

/-- C2 (amended): when the section's own marker is found and the next
candidate's marker is found after it, the extracted text is the
whitespace-strip of the own marker followed by a middle segment that
does not contain the next marker; in the fallback cases (own marker
absent, or next marker absent) the whole remaining text is returned and
may contain other sections' markers. -/
theorem C2_amended : ∀ (full s n : List Char) (start e : Nat),
    findSub full (markerOf s) = some start →
    findSubFrom full (markerOf n) (start + (markerOf s).length) = some e →
    ∃ mid, extract_section_text full s (some n) = stripPy (markerOf s ++ mid) ∧
      ¬ ((markerOf n) <:+: mid) :=
  extract_slice_decomp

def fullC2w : List Char :=
  markerOf "A1A1".data ++ " xx ".data ++ markerOf "B1B1".data ++ " yy".data

/-- C2 (witness): the amended theorem applied to a concrete text in
which both markers occur. -/
theorem C2_witness :
    ∃ mid, extract_section_text fullC2w "A1A1".data (some "B1B1".data) =
        stripPy (markerOf "A1A1".data ++ mid) ∧
      ¬ ((markerOf "B1B1".data) <:+: mid) :=
  C2_amended fullC2w "A1A1".data "B1B1".data 0 10 (by decide) (by decide)

/-- C3 (counterexample): the 2002-character section `contentC3` is
emitted by `chunk_pdf` as two chunks of 1999 and 2 characters: the
2-character chunk is far below `MIN_CHUNK_CHARS` although it is not the
only chunk of its section.  Force-split fragments are never re-merged,
refuting the claim for chunks emitted by the pipeline. -/
theorem C3_counterexample :
    ((chunk_pdf tocC3 1 (fun _ => contentC3) 2).map (fun c => c.content.length)
        = [1999, 2]) ∧
    (chunk_pdf tocC3 1 (fun _ => contentC3) 2).length = 2 := by
  constructor
  · rw [chunks_C3]
    simp [buildChunks]
  · rw [chunks_C3]
    rfl

/-- C3 (amended): every fragment produced by the merge pass of
`split_long_chunk` has at least `MIN_CHUNK_CHARS` characters unless it
is the only fragment; the later force-split stage may emit shorter
chunks. -/
theorem C3_amended : ∀ (t : List Char), 2 ≤ (mergedChunks t).length →
    ∀ c ∈ mergedChunks t, MIN_CHUNK_CHARS ≤ c.length := by
  intro t
  unfold mergedChunks
  exact mergeLoop_min (paraAccum [] (paragraphsOf t)) []
    (by intro h x hx; simp at hx)

/-- C3 (witness): the amended theorem applied to a 2003-character text
whose merge pass keeps two fragments. -/
theorem C3_witness : MIN_CHUNK_CHARS ≤ (List.replicate 60 'x' : List Char).length :=
  C3_amended tC3w (by rw [merged_tC3w] ; simp) (List.replicate 60 'x')
    (by rw [merged_tC3w] ; simp)

def tocC4 : List TocEntry := [⟨3, "A1A1 x".data, 1⟩, ⟨3, "B1B1 y".data, 2⟩]

/-- C4 (counterexample): with two candidates starting on pages 1 and 2
of a 3-page document, the first candidate's concatenated page list is
the 0-indexed `[0, 1]` — it includes page 2, the next candidate's start
page — whereas the claim's exclusive range would be `[0]` (i.e.
`List.range' 0 1`). -/
theorem C4_counterexample :
    sectionPagesFor tocC4 3 0 = [0, 1] ∧
    sectionPagesFor tocC4 3 0 ≠ List.range' 0 1 := by
  refine ⟨by decide, by decide⟩

/-- C4 (amended): a 0-indexed page `p` is read for a section exactly
when `startPage - 1 ≤ p < min endPage totalPages`: the range runs from
the section's own start page up to and including its end-boundary page
(the next candidate's start page, or the content-end page), capped by
the page count — the boundary page is shared, not excluded. -/
theorem C4_amended : ∀ (startPage endPage totalPages p : Nat), 1 ≤ startPage →
    (p ∈ sectionPages startPage endPage totalPages ↔
      startPage - 1 ≤ p ∧ p < min endPage totalPages) := by
  intro s e t p h
  unfold sectionPages
  rw [List.mem_range'_1]
  omega

/-- C4 (witness): the amended characterisation applied at a concrete
page range. -/
theorem C4_witness :
    (1 : Nat) ∈ sectionPages 1 2 3 ↔ 1 - 1 ≤ 1 ∧ 1 < min 2 3 :=
  C4_amended 1 2 3 1 (by decide)

/-- C5 (counterexample): `extract_section_id "A1B2C3 Definitions"` is
`None`, not `"A1B2C3"`: the token `A1B2C3` has three letter-digit
groups and matches neither `^[A-Z]\d+[A-Z]+\d+$` nor `^S\d+C\d+$`. -/
theorem C5_counterexample :
    extract_section_id "A1B2C3 Definitions".data ≠ some "A1B2C3".data ∧
    extract_section_id "A1B2C3 Definitions".data = none := by
  refine ⟨by decide, by decide⟩

/-- C5 (amended): the title `"A1B2C3 Definitions"` yields no identifier,
while a title whose token has exactly the letter+digits+letters+digits
shape, such as `"A1B2 Definitions"`, yields that token. -/
theorem C5_amended :
    extract_section_id "A1B2C3 Definitions".data = none ∧
    extract_section_id "A1B2 Definitions".data = some "A1B2".data := by
  refine ⟨by decide, by decide⟩

/-- C6: `extract_section_text` returns the whitespace-stripped slice
from the section's own marker to the next section's marker when both
are found; the stripped text from the own marker to the end when the
next marker (or next identifier) is absent; and the entire input
unchanged when the own marker is absent — a fallback, not an error. -/
theorem C6_extract_cases : ∀ (full s : List Char) (next : Option (List Char)),
    (findSub full (markerOf s) = none → extract_section_text full s next = full) ∧
    (∀ start, findSub full (markerOf s) = some start →
      ((next = none → extract_section_text full s next = stripPy (full.drop start)) ∧
       (∀ n, next = some n →
         findSubFrom full (markerOf n) (start + (markerOf s).length) = none →
           extract_section_text full s next = stripPy (full.drop start)) ∧
       (∀ n e, next = some n →
         findSubFrom full (markerOf n) (start + (markerOf s).length) = some e →
           extract_section_text full s next =
             stripPy ((full.drop start).take (e - start))))) := by
  intro full s next
  constructor
  · intro h
    simp only [extract_section_text, h]
  · intro start hstart
    refine ⟨?_, ?_, ?_⟩
    · intro hnone
      subst hnone
      simp only [extract_section_text, hstart]
    · intro n hn hfind
      subst hn
      simp only [extract_section_text, hstart, hfind]
    · intro n e hn hfind
      subst hn
      simp only [extract_section_text, hstart, hfind]

/-- C6 (witness): the fallback case applied to a concrete text with no
marker. -/
theorem C6_witness :
    extract_section_text "hello".data "A1A1".data none = "hello".data :=
  (C6_extract_cases "hello".data "A1A1".data none).1 (by decide)

/-- C7 (counterexample): in a non-dry-run execution with missing
credentials, the trace of `main` performs the PDF parse/chunking step
strictly before exiting on the missing environment variables — the
credential check does not precede the parsing, refuting the claim. -/
theorem C7_counterexample :
    eventBefore MainEvent.parsePdf MainEvent.exitMissingEnv
      (mainTrace true false 0 false []) = true ∧
    eventBefore MainEvent.exitMissingEnv MainEvent.parsePdf
      (mainTrace true false 0 false []) = false := by
  refine ⟨by decide, by decide⟩

/-- C7 (amended): in a non-dry-run execution with missing credentials,
`main` does exit on the missing environment variables, but only after
the PDF has been parsed and chunked (and after the skip slice); the
check does precede the embedding/upload stage, which is never
reached. -/
theorem C7_amended : ∀ (skip : Nat) (chunks : List Chunk),
    mainTrace true false skip false chunks =
      MainEvent.parsePdf ::
        ((if 0 < skip then [MainEvent.skipApplied skip] else []) ++
          [MainEvent.exitMissingEnv]) ∧
    (mainTrace true false skip false chunks).all
      (fun ev => !isEmbedUpload ev) = true := by
  intro skip chunks
  constructor
  · simp [mainTrace]
  · by_cases h : 0 < skip <;>
      simp [mainTrace, h, isEmbedUpload]

/-- C8 (counterexample): on an input of 2001 spaces — longer than
`MAX_CHUNK_CHARS` but whitespace-only — `split_long_chunk` returns the
empty list, refuting the claim that it returns a non-empty list for
every input. -/
theorem C8_counterexample :
    split_long_chunk (List.replicate 2001 ' ') = [] ∧
    MAX_CHUNK_CHARS < (List.replicate 2001 ' ' : List Char).length := by
  constructor
  · unfold split_long_chunk
    rw [if_neg (by simp [MAX_CHUNK_CHARS])]
    unfold mergedChunks paragraphsOf
    rw [paraSplit_no_newline _ []
      (by intro c hc; rw [List.eq_of_mem_replicate hc]; decide)]
    simp only [List.reverse_nil, List.nil_append]
    rw [paraAccum_one, if_neg (by
      simp only [ne_eq, Decidable.not_not]
      rw [stripPy_eq_nil_iff]
      intro c hc
      rw [List.eq_of_mem_replicate hc]
      decide)]
    rw [show mergeLoop [] [] = [] from rfl]
    rfl
  · simp [MAX_CHUNK_CHARS]

/-- C8 (amended): `split_long_chunk` returns the input unchanged as a
single fragment whenever it is within `MAX_CHUNK_CHARS`, and returns a
non-empty list whenever the input is not whitespace-only — which is the
case for every text `chunk_pdf` passes to it, thanks to its blank-text
guard; an oversized whitespace-only input yields the empty list. -/
theorem C8_amended : ∀ (t : List Char),
    (t.length ≤ MAX_CHUNK_CHARS → split_long_chunk t = [t]) ∧
    (stripPy t ≠ [] → split_long_chunk t ≠ []) := by
  intro t
  constructor
  · intro h
    simp [split_long_chunk, h]
  · intro hs
    by_cases hlen : t.length ≤ MAX_CHUNK_CHARS
    · simp [split_long_chunk, hlen]
    · simp only [split_long_chunk, if_neg hlen]
      have hpara : paraAccum [] (paragraphsOf t) ≠ [] := by
        rcases (stripPy_ne_nil_iff t).mp hs with ⟨c, hc, hnc⟩
        rcases paraSplit_has_nonws [] t (Or.inl ⟨c, hc, by simpa using hnc⟩)
          with ⟨p, hp, w⟩
        exact paraAccum_ne_nil _ [] (Or.inl ⟨p, hp, w⟩)
      exact forceSplit_ne_nil _ (mergeLoop_ne_nil _ [] (Or.inr hpara))

/-- C8 (witness): the amended theorem applied to a small concrete
input. -/
theorem C8_witness :
    split_long_chunk "hi".data = ["hi".data] ∧ split_long_chunk "hi".data ≠ [] :=
  ⟨(C8_amended "hi".data).1 (by decide), (C8_amended "hi".data).2 (by decide)⟩

def tocC9 : List TocEntry := [⟨3, "A1A1 T".data, 1⟩]

/-- C9: every chunk `chunk_pdf` emits carries `state_specific = False`:
the record builder sets the flag to `False` unconditionally, and
sections under a state-specific appendix are skipped by the level-3
filter, so no emitted chunk is ever state-specific. -/
theorem C9_state_specific : ∀ (toc : List TocEntry) (totalPages : Nat)
    (pageText : Nat → List Char) (volume : Nat),
    ∀ c ∈ chunk_pdf toc totalPages pageText volume,
      c.state_specific = false := by
  intro toc totalPages pageText volume c hc
  exact processEntries_state _ toc totalPages pageText volume _ c hc

theorem chunks_C9 : chunk_pdf tocC9 1 (fun _ => "hello".data) 2 =
    [Chunk.mk "hello".data 2 none (some "A1A1".data) "A1A1 T".data
      [1, 10] false] := by
  rw [show tocC9 = [⟨3, "A1A1 T".data, 1⟩] from rfl]
  rw [chunk_pdf_single "A1A1 T".data "hello".data 2
      (by decide) (by decide) (by decide) (by decide) (by decide)]
  rw [show split_long_chunk "hello".data = ["hello".data] from by
    unfold split_long_chunk
    rw [if_pos (by decide)]]
  rw [show extract_section_id "A1A1 T".data = some "A1A1".data from by decide]
  rfl

/-- C9 (witness): the theorem applied to the chunk produced for a
concrete one-section document. -/
theorem C9_witness :
    (Chunk.mk "hello".data 2 none (some "A1A1".data) "A1A1 T".data
      [1, 10] false).state_specific = false :=
  C9_state_specific tocC9 1 (fun _ => "hello".data) 2 _
    (by rw [chunks_C9] ; exact List.mem_singleton.mpr rfl)

/-- C10: with the dry-run flag set, `main` parses and chunks the PDF and
then prints the entire extracted chunk list and returns: the trace is
the same for every skip value and every credential state — the skip
count is never applied and the credentials are never checked, so a
dry-run cannot fail on missing credentials. -/
theorem C10_dry_run : ∀ (skip : Nat) (envOk : Bool) (chunks : List Chunk),
    mainTrace true true skip envOk chunks =
      [MainEvent.parsePdf, MainEvent.dryRunPrint chunks] := by
  intro skip envOk chunks
  simp [mainTrace]
